import Mathlib

/-!
Shallow embedding of the SVCS repository core (`svcs/repository.py`).

The repository state persisted under `.repo/` is modelled as a `Repo` record:

* `staging`   — the JSON staging table, path ↦ {hash, timestamp};
* `branches`  — the JSON branch table, a single string-keyed mapping that holds
  both branch heads (name ↦ commit id or null) and the reserved `"current"`
  entry (↦ the current branch name), exactly as in `branches.json`;
* `commits`   — the commits directory, commit id ↦ commit record;
* `worktree`  — abstraction of the working directory as seen through
  `get_status`/`stage_file`: the existing, regular, non-ignored files, each
  mapped to its content digest (`_hash_file`).  The filesystem walker and the
  ignore matcher are external collaborators, so only this view is modelled.

JSON dictionaries are association lists with Python-dict semantics: lookup by
first matching key, insertion overwrites in place or appends at the end (Python
dicts preserve insertion order).  Python `KeyError` on `d[k]` is modelled by an
explicit `keyError` result.  SHA-256 of the canonical serialization is modelled
by an injective serialization function `commitHash`: only the fact that the id
is a deterministic function of the record matters for the verified properties.
`datetime.now()` and the `author or $USER` fallback are modelled by passing the
timestamp and resolved author as explicit arguments.  Python's truthiness test
`while current:` (false on `None` and on the empty string) and the f-string
rendering of `None` as `"None"` are modelled explicitly.
-/

/-- One entry of the staging table: `{'hash': …, 'timestamp': …}`. -/
structure StageEntry where
  hash : String
  timestamp : String
deriving DecidableEq

/-- A commit record as serialized to `commits/<id>.json`. -/
structure CommitRec where
  message : String
  author : String
  timestamp : String
  parent : Option String
  changes : List (String × StageEntry)
deriving DecidableEq

/-- The persisted repository state plus the abstracted working-tree view. -/
structure Repo where
  initialized : Bool
  staging : List (String × StageEntry)
  branches : List (String × Option String)
  commits : List (String × CommitRec)
  worktree : List (String × String)
deriving DecidableEq

/-- The distinct failure modes raised by the Python code (each a distinct
exception message in the source; the spec's §7 taxonomy names them). -/
inductive Err where
  | notInitialized
  | emptyStaging
  | keyError
  | fileNotFound (p : String)
  | commitNotFound (h : String)
  | branchExists (n : String)
  | branchNotFound (n : String)
  | selfMerge
  | dirtyWorkingTree
  | noCommonAncestor
deriving DecidableEq

/-- Result of a computation that may raise or may fail to terminate
(the unbounded `while` loop of `_get_commit_history`). -/
inductive PRes (α : Type) where
  | diverge : PRes α
  | err : Err → PRes α
  | ok : α → PRes α
deriving DecidableEq

/-- Python-dict lookup `d.get(k)`: first entry with the given key. -/
def dlookup (k : String) : List (String × β) → Option β
  | [] => none
  | (k', v) :: rest => if k' = k then some v else dlookup k rest

/-- Python-dict insertion `d[k] = v`: overwrite in place, else append. -/
def dinsert (k : String) (v : β) : List (String × β) → List (String × β)
  | [] => [(k, v)]
  | (k', v') :: rest => if k' = k then (k, v) :: rest else (k', v') :: dinsert k v rest

/-- Python `k in d`. -/
def dmem (k : String) (d : List (String × β)) : Bool :=
  (dlookup k d).isSome

/-- Python's f-string rendering of an optional commit id (`None` → `"None"`),
as in `commits/{commit_hash}.json`. -/
def strOfOpt : Option String → String
  | none => "None"
  | some s => s

/-- The state `Repository.init` leaves behind: empty staging, branch table
`{"main": null, "current": "main"}`, no commits.  The working tree the
repository is created over is a parameter. -/
def initRepo (wt : List (String × String)) : Repo :=
  { initialized := true
    staging := []
    branches := [("main", none), ("current", some "main")]
    commits := []
    worktree := wt }

/-- `get_status`-based clean-tree guard used by `switch_branch`/`merge_branch`:
the tree is dirty iff some existing (non-ignored) file is tracked in staging —
both the `staged` (hash equal) and `modified` (hash different) buckets block. -/
def cleanTree (r : Repo) : Bool :=
  r.worktree.all (fun pc => (dlookup pc.1 r.staging).isNone)

/-- `Repository.stage_file`: requires an initialized repository and an existing,
regular, non-ignored file (the three working-tree guards are collapsed into
membership of the abstracted `worktree`); records the file's digest and the
staging timestamp, overwriting any previous entry for the path. -/
def stage_file (r : Repo) (filePath timestamp : String) : Except Err Unit × Repo :=
  if !r.initialized then (.error .notInitialized, r)
  else
    match dlookup filePath r.worktree with
    | none => (.error (.fileNotFound filePath), r)
    | some fileHash =>
      (.ok (), { r with staging := dinsert filePath ⟨fileHash, timestamp⟩ r.staging })

/-- Digest of a commit record, standing in for
`sha256(json.dumps(commit, sort_keys=True))`. -/
def serializeChanges : List (String × StageEntry) → String
  | [] => ""
  | (p, e) :: rest => p ++ ":" ++ e.hash ++ ":" ++ e.timestamp ++ ";" ++ serializeChanges rest

/-- Commit self-identity: a deterministic digest of the whole record. -/
def commitHash (c : CommitRec) : String :=
  "#" ++ c.message ++ "|" ++ c.author ++ "|" ++ c.timestamp ++ "|"
    ++ strOfOpt c.parent ++ "|" ++ serializeChanges c.changes

/-- `Repository.commit`: guards (initialized, non-empty staging), reads the
current branch name and its head (each a `KeyError` if absent, including the
`branches[None]` case), builds the commit record from the staging snapshot,
stores it under its digest, moves the current branch's head to it and clears
staging.  All raises precede the first write, as in the source. -/
def commit (r : Repo) (message author timestamp : String) : Except Err String × Repo :=
  if !r.initialized then (.error .notInitialized, r)
  else if r.staging.isEmpty then (.error .emptyStaging, r)
  else
    match dlookup "current" r.branches with
    | none => (.error .keyError, r)
    | some curV =>
      match curV with
      | none => (.error .keyError, r)
      | some currentBranch =>
        match dlookup currentBranch r.branches with
        | none => (.error .keyError, r)
        | some parentCommit =>
          let c : CommitRec :=
            { message := message, author := author, timestamp := timestamp
              parent := parentCommit, changes := r.staging }
          let h := commitHash c
          (.ok h,
            { r with
              commits := dinsert h c r.commits
              branches := dinsert currentBranch (some h) r.branches
              staging := [] })

/-- `Repository.get_commit`: resolve a commit id in the commits store. -/
def get_commit (r : Repo) (h : String) : Except Err CommitRec :=
  match dlookup h r.commits with
  | none => .error (.commitNotFound h)
  | some c => .ok c

/-- `Repository.create_branch`: fails if the name is already a key of the
branch table (this includes the reserved `"current"` key); otherwise the new
branch's head is the current branch's head. -/
def create_branch (r : Repo) (branchName : String) : Except Err Unit × Repo :=
  if !r.initialized then (.error .notInitialized, r)
  else if dmem branchName r.branches then (.error (.branchExists branchName), r)
  else
    match dlookup "current" r.branches with
    | none => (.error .keyError, r)
    | some curV =>
      match curV with
      | none => (.error .keyError, r)
      | some currentBranch =>
        match dlookup currentBranch r.branches with
        | none => (.error .keyError, r)
        | some head =>
          (.ok (), { r with branches := dinsert branchName head r.branches })

/-- `Repository.list_branches`: all entries except the `"current"` marker. -/
def list_branches (r : Repo) : Except Err (List (String × Option String)) :=
  if !r.initialized then .error .notInitialized
  else .ok (r.branches.filter (fun p => p.1 != "current"))

/-- `Repository.switch_branch`: membership check (the reserved `"current"` key
passes it), clean-tree guard, then set the `"current"` entry to the name. -/
def switch_branch (r : Repo) (branchName : String) : Except Err Unit × Repo :=
  if !r.initialized then (.error .notInitialized, r)
  else if !dmem branchName r.branches then (.error (.branchNotFound branchName), r)
  else if !cleanTree r then (.error .dirtyWorkingTree, r)
  else (.ok (), { r with branches := dinsert "current" (some branchName) r.branches })

/-- `Repository.get_current_branch`: the raw value of the `"current"` entry. -/
def get_current_branch (r : Repo) : Except Err (Option String) :=
  if !r.initialized then .error .notInitialized
  else
    match dlookup "current" r.branches with
    | none => .error .keyError
    | some v => .ok v

/-- `Repository._get_commit_history` with explicit fuel: the source runs an
unbounded `while current:` loop (false on `None` and `""`), so exhausting the
fuel (`diverge`) marks a run of the loop that has not terminated within that
many iterations.  A raise inside the loop aborts the whole traversal. -/
def historyFuel (r : Repo) : Nat → Option String → PRes (List String)
  | 0, _ => .diverge
  | _ + 1, none => .ok []
  | fuel + 1, some c =>
    if c = "" then .ok []
    else
      match get_commit r c with
      | .error e => .err e
      | .ok cm =>
        match historyFuel r fuel cm.parent with
        | .ok rest => .ok (c :: rest)
        | .err e => .err e
        | .diverge => .diverge

/-- `_get_commit_history` as used by `merge_branch`.  A terminating run of the
Python loop visits only keys of the commits store and revisits none (a revisit
closes a cycle and loops forever), so `|commits| + 1` iterations are enough
whenever the loop terminates at all: with this fuel, `diverge` is returned
exactly on the stores where the source loops forever. -/
def commitHistory (r : Repo) (start : Option String) : PRes (List String) :=
  historyFuel r (r.commits.length + 1) start

/-- Digest of one path inside a commit's `changes`
(`changes.get(path, {}).get('hash')`; absent ⇒ `None`). -/
def fileDigest (changes : List (String × StageEntry)) (p : String) : Option String :=
  (dlookup p changes).map (fun e => e.hash)

/-- The three-way conflict test of `merge_branch` for one path. -/
def conflictB (src tgt anc : List (String × StageEntry)) (p : String) : Bool :=
  decide (fileDigest src p ≠ fileDigest anc p)
    && decide (fileDigest tgt p ≠ fileDigest anc p)
    && decide (fileDigest src p ≠ fileDigest tgt p)

/-- Merge outcome: the `{'conflicts': […], 'merged': […]}` dictionary. -/
structure MergeResult where
  conflicts : List String
  merged : List String
deriving DecidableEq

/-- One iteration of the classification loop of `merge_branch`. -/
def classifyStep (src tgt anc : List (String × StageEntry))
    (res : MergeResult) (p : String) : MergeResult :=
  if conflictB src tgt anc p then { res with conflicts := res.conflicts ++ [p] }
  else { res with merged := res.merged ++ [p] }

/-- `set(source_files) | set(target_files)`: the union of the two key sets.
The iteration order of a Python set is implementation-defined; it is fixed here
as source keys followed by the new target keys, and only membership in the
resulting classification is ever asserted. -/
def allFilesOf (src tgt : List (String × StageEntry)) : List String :=
  src.map Prod.fst ++ (tgt.map Prod.fst).filter (fun p => !dmem p src)

/-- The classification loop of `merge_branch` over the union of paths. -/
def classifyFiles (src tgt anc : List (String × StageEntry)) : MergeResult :=
  (allFilesOf src tgt).foldl (classifyStep src tgt anc) ⟨[], []⟩

/-- `Repository.merge_branch`.  Guards in source order: initialized, source
branch exists, source ≠ current (`branches['current']` read first, a
`KeyError` if absent), clean tree.  Then, in source order: resolve the source
head commit (a null head renders as `"None"`), resolve the current branch name
and its head commit, walk both histories, take the first source-history id
contained in the target history (`if not common_ancestor:` also rejects a
falsy `""` id), resolve the ancestor commit and classify the union of paths.
The operation performs no writes: every exit returns the state unchanged. -/
def merge_branch (r : Repo) (branchName : String) : PRes MergeResult × Repo :=
  if !r.initialized then (.err .notInitialized, r)
  else if !dmem branchName r.branches then (.err (.branchNotFound branchName), r)
  else
    match dlookup "current" r.branches with
    | none => (.err .keyError, r)
    | some curV =>
      if curV = some branchName then (.err .selfMerge, r)
      else if !cleanTree r then (.err .dirtyWorkingTree, r)
      else
        match dlookup branchName r.branches with
        | none => (.err .keyError, r)
        | some srcHead =>
          match get_commit r (strOfOpt srcHead) with
          | .error e => (.err e, r)
          | .ok sourceCommit =>
            match curV with
            | none => (.err .keyError, r)
            | some currentBranch =>
              match dlookup currentBranch r.branches with
              | none => (.err .keyError, r)
              | some tgtHead =>
                match get_commit r (strOfOpt tgtHead) with
                | .error e => (.err e, r)
                | .ok targetCommit =>
                  match commitHistory r srcHead with
                  | .diverge => (.diverge, r)
                  | .err e => (.err e, r)
                  | .ok sourceHistory =>
                    match commitHistory r tgtHead with
                    | .diverge => (.diverge, r)
                    | .err e => (.err e, r)
                    | .ok targetHistory =>
                      match sourceHistory.find? (fun c => targetHistory.contains c) with
                      | none => (.err .noCommonAncestor, r)
                      | some commonAncestor =>
                        if commonAncestor = "" then (.err .noCommonAncestor, r)
                        else
                          match get_commit r commonAncestor with
                          | .error e => (.err e, r)
                          | .ok ancestorCommit =>
                            (.ok (classifyFiles sourceCommit.changes
                                    targetCommit.changes ancestorCommit.changes), r)

/-- Repository states reachable from `init` through the public operations.
Error-returning calls leave the state component unchanged, so every call's
resulting state is a step.  `extEdit` models the working tree changing under
the repository between calls (files created, edited or deleted externally);
it touches no persisted table. -/
inductive Reachable : Repo → Prop where
  | init (wt : List (String × String)) : Reachable (initRepo wt)
  | stage (r : Repo) (p t : String) : Reachable r → Reachable (stage_file r p t).2
  | commitStep (r : Repo) (m a t : String) : Reachable r → Reachable (commit r m a t).2
  | createBranch (r : Repo) (n : String) : Reachable r → Reachable (create_branch r n).2
  | switchBranch (r : Repo) (n : String) : Reachable r → Reachable (switch_branch r n).2
  | mergeBranch (r : Repo) (n : String) : Reachable r → Reachable (merge_branch r n).2
  | extEdit (r : Repo) (wt : List (String × String)) :
      Reachable r → Reachable { r with worktree := wt }

/-- Same reachable set, except that `switch_branch` is never invoked with the
reserved name `"current"` (the one call that corrupts the current pointer). -/
inductive ReachableSafe : Repo → Prop where
  | init (wt : List (String × String)) : ReachableSafe (initRepo wt)
  | stage (r : Repo) (p t : String) : ReachableSafe r → ReachableSafe (stage_file r p t).2
  | commitStep (r : Repo) (m a t : String) : ReachableSafe r → ReachableSafe (commit r m a t).2
  | createBranch (r : Repo) (n : String) : ReachableSafe r → ReachableSafe (create_branch r n).2
  | switchBranch (r : Repo) (n : String) (hn : n ≠ "current") :
      ReachableSafe r → ReachableSafe (switch_branch r n).2
  | mergeBranch (r : Repo) (n : String) : ReachableSafe r → ReachableSafe (merge_branch r n).2
  | extEdit (r : Repo) (wt : List (String × String)) :
      ReachableSafe r → ReachableSafe { r with worktree := wt }

/-- The branch-table invariant claimed by the spec: the `"current"` entry names
a branch that exists in the branch table (a branch being a non-`"current"`
entry, i.e. one that `list_branches` reports), and the table has exactly one
`"current"` entry. -/
def currentInv (r : Repo) : Prop :=
  (∃ n, dlookup "current" r.branches = some (some n) ∧
    dmem n (r.branches.filter (fun p => p.1 != "current")) = true)
  ∧ (r.branches.map Prod.fst).count "current" = 1

/-- Strengthened induction form of `currentInv` on a raw branch table. -/
def branchesInv (b : List (String × Option String)) : Prop :=
  (∃ n, dlookup "current" b = some (some n) ∧ n ≠ "current" ∧ dmem n b = true)
  ∧ (b.map Prod.fst).count "current" = 1

/-- A store whose single commit is its own parent: the corrupted shape the
spec's cycle requirement is about. -/
def cyclicRepo : Repo :=
  { initialized := true
    staging := []
    branches := [("main", some "#c"), ("current", some "main")]
    commits := [("#c", { message := "m", author := "a", timestamp := "t",
                         parent := some "#c", changes := [] })]
    worktree := [] }

/-- Root commit of the fork example: `f.txt ↦ h1`, no parent. -/
def ancCommitEx : CommitRec :=
  { message := "first", author := "u", timestamp := "t0",
    parent := none, changes := [("f.txt", ⟨"h1", "s0"⟩)] }

/-- `dev`-side commit of the fork example: `f.txt ↦ h2`, parent `#a`. -/
def srcCommitEx : CommitRec :=
  { message := "dev change", author := "u", timestamp := "t1",
    parent := some "#a", changes := [("f.txt", ⟨"h2", "s1"⟩)] }

/-- `main`-side commit of the fork example: `f.txt ↦ h3`, parent `#a`. -/
def tgtCommitEx : CommitRec :=
  { message := "main change", author := "u", timestamp := "t2",
    parent := some "#a", changes := [("f.txt", ⟨"h3", "s2"⟩)] }

/-- A two-branch fork used to exercise merge: root commit `#a` (f.txt ↦ h1),
`#s` on `dev` (f.txt ↦ h2, parent `#a`), `#t` on `main` (f.txt ↦ h3,
parent `#a`); `main` is current, the tree is clean. -/
def forkRepo : Repo :=
  { initialized := true
    staging := []
    branches := [("main", some "#t"), ("dev", some "#s"), ("current", some "main")]
    commits := [("#a", ancCommitEx), ("#s", srcCommitEx), ("#t", tgtCommitEx)]
    worktree := [] }

/-- A freshly initialized repository with one file staged. -/
def stagedRepo : Repo :=
  (stage_file (initRepo [("f.txt", "h1")]) "f.txt" "ts").2

/-- A repository with a staged file still present in the tree (dirty) and a
second branch `dev` to merge from. -/
def dirtyRepo : Repo :=
  (create_branch (stage_file (initRepo [("f", "h")]) "f" "ts").2 "dev").2

/-- An uninitialized repository over an empty tree. -/
def bareRepo : Repo :=
  { initialized := false, staging := [], branches := [], commits := [], worktree := [] }

/-- Two branches that both still have a null head, `main` current. -/
def nullHeadRepo : Repo :=
  { initialized := true
    staging := []
    branches := [("main", none), ("dev", none), ("current", some "main")]
    commits := []
    worktree := [] }

lemma dlookup_dinsert_self (k : String) (v : β) (d : List (String × β)) :
    dlookup k (dinsert k v d) = some v := by
  induction d with
  | nil => simp [dinsert, dlookup]
  | cons h t ih =>
    by_cases hk : h.1 = k
    · simp [dinsert, hk, dlookup]
    · simpa [dinsert, hk, dlookup] using ih

lemma dlookup_dinsert_ne {k k' : String} (h : k' ≠ k) (v : β) (d : List (String × β)) :
    dlookup k' (dinsert k v d) = dlookup k' d := by
  have hk : ¬(k = k') := fun hh => h hh.symm
  induction d with
  | nil => simp [dinsert, dlookup, hk]
  | cons hd t ih =>
    by_cases hkk : hd.1 = k
    · simp [dinsert, hkk, dlookup, hk]
    · simp [dinsert, hkk, dlookup, ih]

lemma dmem_dinsert_of_dmem {k k' : String} {d : List (String × β)}
    (h : dmem k' d = true) (v : β) : dmem k' (dinsert k v d) = true := by
  by_cases hk : k' = k
  · subst hk
    simp [dmem, dlookup_dinsert_self]
  · simpa [dmem, dlookup_dinsert_ne hk] using h

lemma keys_dinsert_of_dmem {k : String} {d : List (String × β)}
    (h : dmem k d = true) (v : β) :
    (dinsert k v d).map Prod.fst = d.map Prod.fst := by
  induction d with
  | nil => simp [dmem, dlookup] at h
  | cons hd t ih =>
    by_cases hk : hd.1 = k
    · simp [dinsert, hk]
    · simp [dmem, dlookup, hk] at h
      simp [dinsert, hk, ih h]

lemma keys_dinsert_of_not_dmem {k : String} {d : List (String × β)}
    (h : dmem k d = false) (v : β) :
    (dinsert k v d).map Prod.fst = d.map Prod.fst ++ [k] := by
  induction d with
  | nil => simp [dinsert]
  | cons hd t ih =>
    by_cases hk : hd.1 = k
    · simp [dmem, dlookup, hk] at h
    · have h' : dmem k t = false := by
        simpa [dmem, dlookup, hk] using h
      simp [dinsert, hk, ih h']

lemma dmem_iff_mem_keys {k : String} {d : List (String × β)} :
    dmem k d = true ↔ k ∈ d.map Prod.fst := by
  induction d with
  | nil => simp [dmem, dlookup]
  | cons hd t ih =>
    by_cases hk : hd.1 = k
    · simp [dmem, dlookup, hk]
    · have hstep : dmem k (hd :: t) = dmem k t := by
        simp [dmem, dlookup, hk]
      rw [hstep, ih]
      constructor
      · intro hm
        exact List.mem_cons.2 (Or.inr hm)
      · intro hm
        rcases List.mem_cons.1 hm with h1 | h1
        · exact absurd h1.symm hk
        · exact h1

lemma dlookup_filter_key {k q : String} (h : k ≠ q) (d : List (String × β)) :
    dlookup k (d.filter (fun p => p.1 != q)) = dlookup k d := by
  induction d with
  | nil => simp [dlookup]
  | cons hd t ih =>
    by_cases hq : hd.1 = q
    · have hqk : ¬(q = k) := fun hh => h (Eq.symm hh)
      simp [List.filter_cons, hq, dlookup, hqk, ih]
    · simp [List.filter_cons, bne_iff_ne, hq, dlookup, ih]

lemma historyFuel_ok_ne_empty {r : Repo} {f : Nat} {cur : Option String}
    {l : List String} (h : historyFuel r f cur = .ok l) :
    ∀ c ∈ l, c ≠ "" := by
  induction f generalizing cur l with
  | zero => simp [historyFuel] at h
  | succ f ih =>
    match cur with
    | none =>
      simp [historyFuel] at h
      subst h
      simp
    | some c0 =>
      by_cases hc : c0 = ""
      · simp [historyFuel, hc] at h
        subst h
        simp
      · rw [historyFuel, if_neg hc] at h
        cases hg : get_commit r c0 with
        | error e => rw [hg] at h; cases h
        | ok cm =>
          have h2 : (match historyFuel r f cm.parent with
                     | PRes.ok rest => PRes.ok (c0 :: rest)
                     | PRes.err e => PRes.err e
                     | PRes.diverge => PRes.diverge) = PRes.ok l := by
            rw [hg] at h
            exact h
          cases hrec : historyFuel r f cm.parent with
          | ok rest =>
            rw [hrec] at h2
            have h3 : PRes.ok (c0 :: rest) = PRes.ok l := h2
            cases h3
            intro c hcmem
            rcases List.mem_cons.1 hcmem with h1 | h1
            · rw [h1]; exact hc
            · exact ih hrec c h1
          | err e => rw [hrec] at h2; cases h2
          | diverge => rw [hrec] at h2; cases h2

lemma find?_first_split {p : α → Bool} {l : List α} {a : α}
    (h : l.find? p = some a) :
    p a = true ∧ ∃ l1 l2, l = l1 ++ a :: l2 ∧ ∀ x ∈ l1, p x = false := by
  induction l with
  | nil => cases h
  | cons b t ih =>
    by_cases hb : p b = true
    · rw [List.find?_cons_of_pos _ hb] at h
      cases h
      exact ⟨hb, [], t, rfl, by simp⟩
    · have hb' : p b = false := by
        cases hpb : p b
        · rfl
        · exact absurd hpb hb
      rw [List.find?_cons_of_neg _ (by simp [hb'])] at h
      rcases ih h with ⟨hpa, l1, l2, hsplit, hfirst⟩
      refine ⟨hpa, b :: l1, l2, by rw [hsplit]; rfl, ?_⟩
      intro x hx
      rcases List.mem_cons.1 hx with h1 | h1
      · rw [h1]; exact hb'
      · exact hfirst x h1

lemma mem_foldl_classify_conflicts (src tgt anc : List (String × StageEntry))
    (files : List String) (acc : MergeResult) (p : String) :
    p ∈ (files.foldl (classifyStep src tgt anc) acc).conflicts ↔
      p ∈ acc.conflicts ∨ (p ∈ files ∧ conflictB src tgt anc p = true) := by
  induction files generalizing acc with
  | nil => simp
  | cons f fs ih =>
    rw [List.foldl_cons, ih]
    cases hB : conflictB src tgt anc f with
    | true =>
      simp only [classifyStep, hB, if_true, List.mem_append, List.mem_cons,
        List.not_mem_nil, or_false]
      constructor
      · rintro ((hpa | hpf) | ⟨hpfs, hBp⟩)
        · exact Or.inl hpa
        · subst hpf; exact Or.inr ⟨Or.inl rfl, hB⟩
        · exact Or.inr ⟨Or.inr hpfs, hBp⟩
      · rintro (hpa | ⟨hpf | hpfs, hBp⟩)
        · exact Or.inl (Or.inl hpa)
        · subst hpf; exact Or.inl (Or.inr rfl)
        · exact Or.inr ⟨hpfs, hBp⟩
    | false =>
      simp only [classifyStep, hB, Bool.false_eq_true, if_false, List.mem_cons]
      constructor
      · rintro (hpa | ⟨hpfs, hBp⟩)
        · exact Or.inl hpa
        · exact Or.inr ⟨Or.inr hpfs, hBp⟩
      · rintro (hpa | ⟨hpf | hpfs, hBp⟩)
        · exact Or.inl hpa
        · subst hpf; rw [hB] at hBp; cases hBp
        · exact Or.inr ⟨hpfs, hBp⟩

lemma mem_foldl_classify_merged (src tgt anc : List (String × StageEntry))
    (files : List String) (acc : MergeResult) (p : String) :
    p ∈ (files.foldl (classifyStep src tgt anc) acc).merged ↔
      p ∈ acc.merged ∨ (p ∈ files ∧ conflictB src tgt anc p = false) := by
  induction files generalizing acc with
  | nil => simp
  | cons f fs ih =>
    rw [List.foldl_cons, ih]
    cases hB : conflictB src tgt anc f with
    | false =>
      simp only [classifyStep, hB, Bool.false_eq_true, if_false, List.mem_append,
        List.mem_cons, List.not_mem_nil, or_false]
      constructor
      · rintro ((hpa | hpf) | ⟨hpfs, hBp⟩)
        · exact Or.inl hpa
        · subst hpf; exact Or.inr ⟨Or.inl rfl, hB⟩
        · exact Or.inr ⟨Or.inr hpfs, hBp⟩
      · rintro (hpa | ⟨hpf | hpfs, hBp⟩)
        · exact Or.inl (Or.inl hpa)
        · subst hpf; exact Or.inl (Or.inr rfl)
        · exact Or.inr ⟨hpfs, hBp⟩
    | true =>
      simp only [classifyStep, hB, if_true, List.mem_cons]
      constructor
      · rintro (hpa | ⟨hpfs, hBp⟩)
        · exact Or.inl hpa
        · exact Or.inr ⟨Or.inr hpfs, hBp⟩
      · rintro (hpa | ⟨hpf | hpfs, hBp⟩)
        · exact Or.inl hpa
        · subst hpf; rw [hB] at hBp; cases hBp
        · exact Or.inr ⟨hpfs, hBp⟩

lemma mem_allFilesOf {src tgt : List (String × StageEntry)} {p : String} :
    p ∈ allFilesOf src tgt ↔ (dmem p src = true ∨ dmem p tgt = true) := by
  simp only [allFilesOf, List.mem_append, List.mem_filter, dmem_iff_mem_keys]
  constructor
  · rintro (h1 | ⟨h1, _⟩)
    · exact Or.inl h1
    · exact Or.inr h1
  · intro h1
    by_cases hs : p ∈ src.map Prod.fst
    · exact Or.inl hs
    · rcases h1 with h1 | h1
      · exact absurd h1 hs
      · refine Or.inr ⟨h1, ?_⟩
        cases hdm : dmem p src with
        | false => rfl
        | true => exact absurd (dmem_iff_mem_keys.1 hdm) hs

lemma merge_branch_snd (r : Repo) (branchName : String) :
    (merge_branch r branchName).2 = r := by
  unfold merge_branch
  repeat' split
  all_goals rfl

lemma merge_after_guards (r : Repo) (branchName cn : String)
    (srcHead tgtHead : Option String) (S T : CommitRec) (la lb : List String)
    (hinit : r.initialized = true)
    (hmem : dmem branchName r.branches = true)
    (hcur : dlookup "current" r.branches = some (some cn))
    (hself : cn ≠ branchName)
    (hclean : cleanTree r = true)
    (hsrc : dlookup branchName r.branches = some srcHead)
    (hS : get_commit r (strOfOpt srcHead) = .ok S)
    (htgt : dlookup cn r.branches = some tgtHead)
    (hT : get_commit r (strOfOpt tgtHead) = .ok T)
    (hla : commitHistory r srcHead = .ok la)
    (hlb : commitHistory r tgtHead = .ok lb) :
    merge_branch r branchName =
      (match la.find? (fun c => lb.contains c) with
       | none => (.err .noCommonAncestor, r)
       | some ca =>
         if ca = "" then (.err .noCommonAncestor, r)
         else
           match get_commit r ca with
           | .error e => (.err e, r)
           | .ok A => (.ok (classifyFiles S.changes T.changes A.changes), r)) := by
  have hne : ¬(some cn = some branchName) := by
    intro hcon
    exact hself (Option.some.inj hcon)
  unfold merge_branch
  rw [hinit, hcur, hsrc]
  simp only [hmem, Bool.not_true, Bool.false_eq_true, if_false, hne, ite_false,
    hclean, hS, htgt, hT, hla, hlb]

lemma dmem_filter_self (q : String) (d : List (String × β)) :
    dmem q (d.filter (fun p => p.1 != q)) = false := by
  induction d with
  | nil => rfl
  | cons hd t ih =>
    by_cases hq : hd.1 = q
    · simpa [List.filter_cons, hq] using ih
    · rw [List.filter_cons, if_pos (by simpa [bne_iff_ne] using hq)]
      simpa [dmem, dlookup, hq] using ih

lemma stage_file_branches (r : Repo) (p t : String) :
    (stage_file r p t).2.branches = r.branches := by
  unfold stage_file
  repeat' split
  all_goals rfl

/-- C7: in every initialized repository whose staging table is empty, `commit`
fails with `EmptyStagingError`, and the staging table, branch table and commit
store are unchanged by the failed call (the returned state is the input
state). -/
theorem commit_empty_staging_fails (r : Repo) (message author timestamp : String)
    (hinit : r.initialized = true) (hempty : r.staging = []) :
    commit r message author timestamp = (.error .emptyStaging, r) := by
  unfold commit
  rw [hinit, hempty]
  simp

theorem commit_empty_staging_fails_w :
    commit (initRepo []) "m" "a" "t" = (.error .emptyStaging, initRepo []) :=
  commit_empty_staging_fails (initRepo []) "m" "a" "t" rfl rfl

/-- C8: `merge_branch` is read-only analysis — on every call (successful or
not) the staging table, the branch table (including the current pointer) and
the commit store are identical before and after; in particular no commit
record is ever created by a merge. -/
theorem merge_is_read_only (r : Repo) (branchName : String) :
    (merge_branch r branchName).2.staging = r.staging ∧
    (merge_branch r branchName).2.branches = r.branches ∧
    (merge_branch r branchName).2.commits = r.commits := by
  rw [merge_branch_snd]
  exact ⟨rfl, rfl, rfl⟩

/-- C9: in every initialized repository (whose branch table, as always after
`init`, holds the reserved `"current"` key) `create_branch "current"` fails
with `BranchExistsError` and changes nothing, even though no branch of that
name exists — `list_branches` never reports a branch called `"current"`. -/
theorem create_branch_current_reserved (r : Repo)
    (hinit : r.initialized = true) (hcur : dmem "current" r.branches = true) :
    create_branch r "current" = (.error (.branchExists "current"), r) ∧
    ∀ bs, list_branches r = .ok bs → dmem "current" bs = false := by
  constructor
  · unfold create_branch
    rw [hinit, hcur]
    simp
  · intro bs hbs
    unfold list_branches at hbs
    rw [hinit] at hbs
    simp at hbs
    rw [← hbs]
    exact dmem_filter_self "current" r.branches

theorem create_branch_current_reserved_w :
    create_branch (initRepo []) "current" =
      (.error (.branchExists "current"), initRepo []) ∧
    dmem "current" [("main", (none : Option String))] = false :=
  ⟨(create_branch_current_reserved (initRepo []) rfl rfl).1,
   (create_branch_current_reserved (initRepo []) rfl rfl).2
     [("main", none)] rfl⟩

/-- C5: `merge_branch` checks its preconditions in a fixed order, each with a
distinct failure and no state change: not initialized ⇒ not-initialized error;
else unknown source branch ⇒ `BranchNotFoundError`; else source equal to the
current branch ⇒ `SelfMergeError`; else dirty working tree ⇒
`DirtyWorkingTreeError`; classification only runs after all four pass. -/
theorem merge_precondition_order (r : Repo) (branchName : String) :
    (r.initialized = false →
      merge_branch r branchName = (.err .notInitialized, r)) ∧
    (r.initialized = true → dmem branchName r.branches = false →
      merge_branch r branchName = (.err (.branchNotFound branchName), r)) ∧
    (r.initialized = true → dmem branchName r.branches = true →
      dlookup "current" r.branches = some (some branchName) →
      merge_branch r branchName = (.err .selfMerge, r)) ∧
    (∀ cn, r.initialized = true → dmem branchName r.branches = true →
      dlookup "current" r.branches = some (some cn) → cn ≠ branchName →
      cleanTree r = false →
      merge_branch r branchName = (.err .dirtyWorkingTree, r)) := by
  refine ⟨?_, ?_, ?_, ?_⟩
  · intro h1
    unfold merge_branch
    rw [h1]
    simp
  · intro h1 h2
    unfold merge_branch
    rw [h1]
    simp [h2]
  · intro h1 h2 h3
    unfold merge_branch
    rw [h1, h3]
    simp [h2]
  · intro cn h1 h2 h3 h4 h5
    have hne : ¬(some cn = some branchName) := fun hc => h4 (Option.some.inj hc)
    unfold merge_branch
    rw [h1, h3]
    simp [h2, hne, h5]

theorem merge_precondition_order_w :
    merge_branch bareRepo "dev" = (.err .notInitialized, bareRepo) ∧
    merge_branch (initRepo []) "dev" =
      (.err (.branchNotFound "dev"), initRepo []) ∧
    merge_branch (initRepo []) "main" = (.err .selfMerge, initRepo []) ∧
    merge_branch dirtyRepo "dev" = (.err .dirtyWorkingTree, dirtyRepo) :=
  ⟨(merge_precondition_order bareRepo "dev").1 rfl,
   (merge_precondition_order (initRepo []) "dev").2.1 rfl (by decide),
   (merge_precondition_order (initRepo []) "main").2.2.1 rfl (by decide) (by decide),
   (merge_precondition_order dirtyRepo "dev").2.2.2 "main" rfl (by decide)
     (by decide) (by decide) (by decide)⟩

/-- C10: when the guards pass but the source branch's head is null — or the
source head resolves and the current branch's head is null — `merge_branch`
fails with `CommitNotFoundError` for the id `"None"` (the f-string rendering
of the null head), not with a merge-specific error, and the state is
unchanged.  The hypothesis `dlookup "None" r.commits = none` records that no
commit is stored under the literal id `"None"` (commit ids are digests). -/
theorem merge_null_head_commit_not_found (r : Repo) (branchName cn : String)
    (hinit : r.initialized = true)
    (hmem : dmem branchName r.branches = true)
    (hcur : dlookup "current" r.branches = some (some cn))
    (hself : cn ≠ branchName)
    (hclean : cleanTree r = true)
    (hnone : dlookup "None" r.commits = none) :
    (dlookup branchName r.branches = some none →
      merge_branch r branchName = (.err (.commitNotFound "None"), r)) ∧
    (∀ sh S, dlookup branchName r.branches = some (some sh) →
      get_commit r sh = .ok S →
      dlookup cn r.branches = some none →
      merge_branch r branchName = (.err (.commitNotFound "None"), r)) := by
  have hne : ¬(some cn = some branchName) := fun hc => hself (Option.some.inj hc)
  have hgc : get_commit r "None" = .error (.commitNotFound "None") := by
    unfold get_commit
    rw [hnone]
  constructor
  · intro hsrc
    unfold merge_branch
    rw [hinit, hcur, hsrc]
    simp [hmem, hne, hclean, strOfOpt, hgc]
  · intro sh S hsrc hS htgt
    unfold merge_branch
    rw [hinit, hcur, hsrc]
    simp [hmem, hne, hclean, strOfOpt, hS, htgt, hgc]

theorem merge_null_head_commit_not_found_w :
    merge_branch nullHeadRepo "dev" = (.err (.commitNotFound "None"), nullHeadRepo) :=
  (merge_null_head_commit_not_found nullHeadRepo "dev" "main" rfl (by decide)
    (by decide) (by decide) (by decide) rfl).1 (by decide)

/-- C3: the claim says the ancestor-chain traversal terminates on every store,
reporting a cycle as a fatal integrity error.  The code has no cap and no
visited-set: on a store whose single commit is its own parent, the
`while current:` loop of `_get_commit_history` never terminates — for every
iteration bound the fuel semantics still reports divergence. -/
theorem commit_history_diverges_on_cycle :
    ∀ fuel : Nat, historyFuel cyclicRepo fuel (some "#c") = .diverge := by
  intro fuel
  induction fuel with
  | zero => rfl
  | succ f ih =>
    rw [historyFuel, if_neg (by decide)]
    have hg : get_commit cyclicRepo "#c" =
        .ok { message := "m", author := "a", timestamp := "t",
              parent := some "#c", changes := [] } := rfl
    rw [hg]
    show (match historyFuel cyclicRepo f (some "#c") with
          | PRes.ok rest => PRes.ok ("#c" :: rest)
          | PRes.err e => PRes.err e
          | PRes.diverge => PRes.diverge) = PRes.diverge
    rw [ih]

/-- C6: in every initialized repository with a non-empty staging table (and a
readable current branch, as every reachable state has), `commit` succeeds with
an id `h` such that `get_commit` on the post state yields a record whose
`changes` equal the pre-commit staging snapshot and whose `parent` is the
pre-commit head of the current branch; afterwards staging is empty and the
current branch's head is `h`. -/
theorem commit_round_trip (r : Repo) (message author timestamp cn : String)
    (parentHead : Option String)
    (hinit : r.initialized = true)
    (hstage : r.staging ≠ [])
    (hcur : dlookup "current" r.branches = some (some cn))
    (hph : dlookup cn r.branches = some parentHead) :
    ∃ h r', commit r message author timestamp = (.ok h, r') ∧
      get_commit r' h =
        .ok ⟨message, author, timestamp, parentHead, r.staging⟩ ∧
      r'.staging = [] ∧
      dlookup cn r'.branches = some (some h) := by
  have hne : r.staging.isEmpty = false := by
    cases hs : r.staging with
    | nil => exact absurd hs hstage
    | cons a t => rfl
  have hcomp : commit r message author timestamp =
      (.ok (commitHash ⟨message, author, timestamp, parentHead, r.staging⟩),
       { r with
         commits := dinsert
           (commitHash ⟨message, author, timestamp, parentHead, r.staging⟩)
           ⟨message, author, timestamp, parentHead, r.staging⟩ r.commits
         branches := dinsert cn
           (some (commitHash ⟨message, author, timestamp, parentHead, r.staging⟩))
           r.branches
         staging := [] }) := by
    unfold commit
    rw [hinit]
    simp [hne, hcur, hph]
  refine ⟨_, _, hcomp, ?_, rfl, ?_⟩
  · unfold get_commit
    rw [dlookup_dinsert_self]
  · exact dlookup_dinsert_self cn _ r.branches

theorem commit_round_trip_w :
    ∃ h r', commit stagedRepo "m" "a" "t" = (.ok h, r') ∧
      get_commit r' h = .ok ⟨"m", "a", "t", none, stagedRepo.staging⟩ ∧
      r'.staging = [] ∧
      dlookup "main" r'.branches = some (some h) :=
  commit_round_trip stagedRepo "m" "a" "t" "main" none rfl (by decide)
    (by decide) (by decide)

/-- C1: on a successful merge of an existing source branch into a different
current branch on a clean tree, a path in the union of the source head's and
target head's `changes` is classified a conflict iff its digest at the source
head, at the target head and at the common ancestor (absent ⇒ null digest)
satisfy `s ≠ a ∧ t ≠ a ∧ s ≠ t`; every other path of the union is classified
merged. -/
theorem merge_conflict_classification (r : Repo) (branchName cn anc p : String)
    (srcHead tgtHead : Option String) (S T A : CommitRec)
    (la lb : List String) (res : MergeResult)
    (hinit : r.initialized = true)
    (hmem : dmem branchName r.branches = true)
    (hcur : dlookup "current" r.branches = some (some cn))
    (hself : cn ≠ branchName)
    (hclean : cleanTree r = true)
    (hsrc : dlookup branchName r.branches = some srcHead)
    (hS : get_commit r (strOfOpt srcHead) = .ok S)
    (htgt : dlookup cn r.branches = some tgtHead)
    (hT : get_commit r (strOfOpt tgtHead) = .ok T)
    (hla : commitHistory r srcHead = .ok la)
    (hlb : commitHistory r tgtHead = .ok lb)
    (hanc : la.find? (fun c => lb.contains c) = some anc)
    (hA : get_commit r anc = .ok A)
    (hres : (merge_branch r branchName).1 = .ok res)
    (hp : dmem p S.changes = true ∨ dmem p T.changes = true) :
    (p ∈ res.conflicts ↔
      (fileDigest S.changes p ≠ fileDigest A.changes p ∧
       fileDigest T.changes p ≠ fileDigest A.changes p ∧
       fileDigest S.changes p ≠ fileDigest T.changes p)) ∧
    (p ∈ res.merged ↔
      ¬(fileDigest S.changes p ≠ fileDigest A.changes p ∧
        fileDigest T.changes p ≠ fileDigest A.changes p ∧
        fileDigest S.changes p ≠ fileDigest T.changes p)) := by
  have hla' : historyFuel r (r.commits.length + 1) srcHead = .ok la := hla
  have hancmem : anc ∈ la := List.mem_of_find?_eq_some hanc
  have hancne : anc ≠ "" := historyFuel_ok_ne_empty hla' anc hancmem
  have hred := merge_after_guards r branchName cn srcHead tgtHead S T la lb
    hinit hmem hcur hself hclean hsrc hS htgt hT hla hlb
  have hval : (merge_branch r branchName).1 =
      .ok (classifyFiles S.changes T.changes A.changes) := by
    rw [hred, hanc]
    simp [hancne, hA]
  rw [hval] at hres
  injection hres with hresval
  subst hresval
  have hpall : p ∈ allFilesOf S.changes T.changes := mem_allFilesOf.2 hp
  have hc1 : p ∈ (classifyFiles S.changes T.changes A.changes).conflicts ↔
      conflictB S.changes T.changes A.changes p = true := by
    unfold classifyFiles
    rw [mem_foldl_classify_conflicts]
    simp [hpall]
  have hc2 : p ∈ (classifyFiles S.changes T.changes A.changes).merged ↔
      conflictB S.changes T.changes A.changes p = false := by
    unfold classifyFiles
    rw [mem_foldl_classify_merged]
    simp [hpall]
  have hb : conflictB S.changes T.changes A.changes p = true ↔
      (fileDigest S.changes p ≠ fileDigest A.changes p ∧
       fileDigest T.changes p ≠ fileDigest A.changes p ∧
       fileDigest S.changes p ≠ fileDigest T.changes p) := by
    unfold conflictB
    simp [Bool.and_eq_true, decide_eq_true_eq, and_assoc]
  constructor
  · rw [hc1, hb]
  · rw [hc2, ← hb]
    simp

theorem merge_conflict_classification_w :
    ("f.txt" ∈ (MergeResult.mk ["f.txt"] []).conflicts ↔
      (fileDigest srcCommitEx.changes "f.txt" ≠ fileDigest ancCommitEx.changes "f.txt" ∧
       fileDigest tgtCommitEx.changes "f.txt" ≠ fileDigest ancCommitEx.changes "f.txt" ∧
       fileDigest srcCommitEx.changes "f.txt" ≠ fileDigest tgtCommitEx.changes "f.txt")) ∧
    ("f.txt" ∈ (MergeResult.mk ["f.txt"] []).merged ↔
      ¬(fileDigest srcCommitEx.changes "f.txt" ≠ fileDigest ancCommitEx.changes "f.txt" ∧
        fileDigest tgtCommitEx.changes "f.txt" ≠ fileDigest ancCommitEx.changes "f.txt" ∧
        fileDigest srcCommitEx.changes "f.txt" ≠ fileDigest tgtCommitEx.changes "f.txt")) :=
  merge_conflict_classification forkRepo "dev" "main" "#a" "f.txt"
    (some "#s") (some "#t") srcCommitEx tgtCommitEx ancCommitEx
    ["#s", "#a"] ["#t", "#a"] (MergeResult.mk ["f.txt"] [])
    rfl (by decide) (by decide) (by decide) (by decide) (by decide)
    rfl (by decide) rfl (by decide) (by decide)
    (by decide) rfl (by decide) (Or.inl (by decide))

/-- C4: with both branch-head histories computed, the common ancestor merge
uses is the first id of the source chain (newest-first) contained in the
target chain: it lies in both chains and no id strictly newer than it in the
source chain (hence none strictly newer in both chains) is shared; when the
two chains share no commit at all, `merge_branch` fails with
`NoCommonAncestorError`. -/
theorem common_ancestor_correct (r : Repo) (branchName cn : String)
    (srcHead tgtHead : Option String) (S T : CommitRec) (la lb : List String)
    (hinit : r.initialized = true)
    (hmem : dmem branchName r.branches = true)
    (hcur : dlookup "current" r.branches = some (some cn))
    (hself : cn ≠ branchName)
    (hclean : cleanTree r = true)
    (hsrc : dlookup branchName r.branches = some srcHead)
    (hS : get_commit r (strOfOpt srcHead) = .ok S)
    (htgt : dlookup cn r.branches = some tgtHead)
    (hT : get_commit r (strOfOpt tgtHead) = .ok T)
    (hla : commitHistory r srcHead = .ok la)
    (hlb : commitHistory r tgtHead = .ok lb) :
    ((∀ c ∈ la, c ∉ lb) →
      (merge_branch r branchName).1 = .err .noCommonAncestor) ∧
    (∀ anc, la.find? (fun c => lb.contains c) = some anc →
      anc ∈ la ∧ anc ∈ lb ∧
      ∃ l1 l2, la = l1 ++ anc :: l2 ∧ ∀ c ∈ l1, c ∉ lb) := by
  have hred := merge_after_guards r branchName cn srcHead tgtHead S T la lb
    hinit hmem hcur hself hclean hsrc hS htgt hT hla hlb
  constructor
  · intro hshare
    have hfind : la.find? (fun c => lb.contains c) = none := by
      apply List.find?_eq_none.mpr
      intro x hx
      intro hcon
      exact hshare x hx (List.elem_iff.mp hcon)
    rw [hred, hfind]
  · intro anc hanc
    obtain ⟨hpa, l1, l2, hsplit, hfirst⟩ := find?_first_split hanc
    refine ⟨List.mem_of_find?_eq_some hanc, List.elem_iff.mp hpa,
      l1, l2, hsplit, ?_⟩
    intro c hc hclb
    have hf := hfirst c hc
    have ht : lb.contains c = true := List.elem_iff.mpr hclb
    rw [hf] at ht
    cases ht

theorem common_ancestor_correct_w :
    ((∀ c ∈ ["#s", "#a"], c ∉ ["#t", "#a"]) →
      (merge_branch forkRepo "dev").1 = .err .noCommonAncestor) ∧
    (∀ anc, (["#s", "#a"].find? (fun c => ["#t", "#a"].contains c)) = some anc →
      anc ∈ ["#s", "#a"] ∧ anc ∈ ["#t", "#a"] ∧
      ∃ l1 l2, ["#s", "#a"] = l1 ++ anc :: l2 ∧ ∀ c ∈ l1, c ∉ ["#t", "#a"]) :=
  common_ancestor_correct forkRepo "dev" "main" (some "#s") (some "#t")
    srcCommitEx tgtCommitEx ["#s", "#a"] ["#t", "#a"]
    rfl (by decide) (by decide) (by decide) (by decide) (by decide)
    rfl (by decide) rfl (by decide) (by decide)


lemma commit_branches_success (r : Repo) (m a t n : String) (ph : Option String)
    (hinit : r.initialized = true) (hstag : r.staging.isEmpty = false)
    (hcur : dlookup "current" r.branches = some (some n))
    (hph : dlookup n r.branches = some ph) :
    (commit r m a t).2.branches =
      dinsert n (some (commitHash ⟨m, a, t, ph, r.staging⟩)) r.branches := by
  unfold commit
  rw [hinit]
  simp [hstag, hcur, hph]

lemma create_branch_branches_success (r : Repo) (bn n : String) (head : Option String)
    (hinit : r.initialized = true) (hmembn : dmem bn r.branches = false)
    (hcur : dlookup "current" r.branches = some (some n))
    (hhead : dlookup n r.branches = some head) :
    (create_branch r bn).2.branches = dinsert bn head r.branches := by
  unfold create_branch
  rw [hinit]
  simp [hmembn, hcur, hhead]

lemma switch_branch_branches_success (r : Repo) (bn : String)
    (hinit : r.initialized = true) (hmembn : dmem bn r.branches = true)
    (hclean : cleanTree r = true) :
    (switch_branch r bn).2.branches = dinsert "current" (some bn) r.branches := by
  unfold switch_branch
  rw [hinit]
  simp [hmembn, hclean]

lemma branchesInv_currentInv {r : Repo} (h : branchesInv r.branches) :
    currentInv r := by
  obtain ⟨⟨n, hcur, hne, hmemn⟩, hcount⟩ := h
  refine ⟨⟨n, hcur, ?_⟩, hcount⟩
  unfold dmem
  rw [dlookup_filter_key hne]
  exact hmemn

lemma branchesInv_of_reachableSafe {r : Repo} (h : ReachableSafe r) :
    branchesInv r.branches := by
  induction h with
  | init wt =>
    refine ⟨⟨"main", rfl, by decide, rfl⟩, rfl⟩
  | stage r p t hr ih =>
    rw [stage_file_branches]
    exact ih
  | commitStep r m a t hr ih =>
    obtain ⟨⟨n, hcur, hne, hmemn⟩, hcount⟩ := ih
    cases hinit : r.initialized with
    | false =>
      have heq : (commit r m a t).2 = r := by
        unfold commit
        rw [hinit]
        simp
      rw [heq]
      exact ⟨⟨n, hcur, hne, hmemn⟩, hcount⟩
    | true =>
      cases hstag : r.staging.isEmpty with
      | true =>
        have heq : (commit r m a t).2 = r := by
          unfold commit
          rw [hinit, hstag]
          simp
        rw [heq]
        exact ⟨⟨n, hcur, hne, hmemn⟩, hcount⟩
      | false =>
        obtain ⟨ph, hph⟩ := Option.isSome_iff_exists.mp hmemn
        rw [commit_branches_success r m a t n ph hinit hstag hcur hph]
        refine ⟨⟨n, ?_, hne, ?_⟩, ?_⟩
        · rw [dlookup_dinsert_ne (Ne.symm hne)]
          exact hcur
        · unfold dmem
          rw [dlookup_dinsert_self]
          rfl
        · rw [keys_dinsert_of_dmem hmemn]
          exact hcount
  | createBranch r bn hr ih =>
    obtain ⟨⟨n, hcur, hne, hmemn⟩, hcount⟩ := ih
    cases hinit : r.initialized with
    | false =>
      have heq : (create_branch r bn).2 = r := by
        unfold create_branch
        rw [hinit]
        simp
      rw [heq]
      exact ⟨⟨n, hcur, hne, hmemn⟩, hcount⟩
    | true =>
      cases hmembn : dmem bn r.branches with
      | true =>
        have heq : (create_branch r bn).2 = r := by
          unfold create_branch
          rw [hinit, hmembn]
          simp
        rw [heq]
        exact ⟨⟨n, hcur, hne, hmemn⟩, hcount⟩
      | false =>
        obtain ⟨head, hhead⟩ := Option.isSome_iff_exists.mp hmemn
        rw [create_branch_branches_success r bn n head hinit hmembn hcur hhead]
        have hcurmem : dmem "current" r.branches = true := by
          unfold dmem
          rw [hcur]
          rfl
        have hbnne : bn ≠ "current" := by
          intro hbn
          rw [hbn, hcurmem] at hmembn
          cases hmembn
        refine ⟨⟨n, ?_, hne, ?_⟩, ?_⟩
        · rw [dlookup_dinsert_ne (Ne.symm hbnne)]
          exact hcur
        · exact dmem_dinsert_of_dmem hmemn head
        · rw [keys_dinsert_of_not_dmem hmembn head, List.count_append]
          have h0 : [bn].count "current" = 0 := by
            rw [List.count_eq_zero]
            intro hmem0
            rw [List.mem_singleton] at hmem0
            exact hbnne hmem0.symm
          rw [h0, hcount]
  | switchBranch r bn hbnne hr ih =>
    obtain ⟨⟨n, hcur, hne, hmemn⟩, hcount⟩ := ih
    cases hinit : r.initialized with
    | false =>
      have heq : (switch_branch r bn).2 = r := by
        unfold switch_branch
        rw [hinit]
        simp
      rw [heq]
      exact ⟨⟨n, hcur, hne, hmemn⟩, hcount⟩
    | true =>
      cases hmembn : dmem bn r.branches with
      | false =>
        have heq : (switch_branch r bn).2 = r := by
          unfold switch_branch
          rw [hinit, hmembn]
          simp
        rw [heq]
        exact ⟨⟨n, hcur, hne, hmemn⟩, hcount⟩
      | true =>
        cases hclean : cleanTree r with
        | false =>
          have heq : (switch_branch r bn).2 = r := by
            unfold switch_branch
            rw [hinit, hmembn, hclean]
            simp
          rw [heq]
          exact ⟨⟨n, hcur, hne, hmemn⟩, hcount⟩
        | true =>
          rw [switch_branch_branches_success r bn hinit hmembn hclean]
          have hcurmem : dmem "current" r.branches = true := by
            unfold dmem
            rw [hcur]
            rfl
          refine ⟨⟨bn, dlookup_dinsert_self _ _ _, hbnne, ?_⟩, ?_⟩
          · exact dmem_dinsert_of_dmem hmembn (some bn)
          · rw [keys_dinsert_of_dmem hcurmem]
            exact hcount
  | mergeBranch r bn hr ih =>
    rw [merge_branch_snd]
    exact ih
  | extEdit r wt hr ih => exact ih

/-- C2 (amended): in every repository state reachable from `init` by the
public operations in which `switch_branch` is never invoked with the reserved
name `"current"`, the branch table's `current` entry names an existing branch
(a non-`"current"` key of the table, i.e. one `list_branches` reports) and the
table holds exactly one `current` entry. -/
theorem current_invariant_reachable_safe (r : Repo) (h : ReachableSafe r) :
    currentInv r :=
  branchesInv_currentInv (branchesInv_of_reachableSafe h)

theorem current_invariant_reachable_safe_w : currentInv (initRepo []) :=
  current_invariant_reachable_safe (initRepo []) (.init [])

/-- C2 counterexample: the unrestricted claim is false.  `switch_branch` with
the reserved name `"current"` passes the membership check (the pointer key is
a key of the branch table) on a clean tree, after which the `current` entry
names `"current"` itself — not any existing branch.  The state reached from a
fresh `init` by that single call is reachable yet violates the invariant. -/
theorem current_invariant_counterexample :
    Reachable (switch_branch (initRepo []) "current").2 ∧
    ¬currentInv (switch_branch (initRepo []) "current").2 := by
  constructor
  · exact .switchBranch (initRepo []) "current" (.init [])
  · intro hinv
    obtain ⟨⟨n, hcur, hmem⟩, -⟩ := hinv
    have hval : dlookup "current" ((switch_branch (initRepo []) "current").2).branches
        = some (some "current") := by decide
    rw [hval] at hcur
    injection hcur with h1
    injection h1 with h2
    rw [← h2] at hmem
    exact absurd hmem (by decide)
